import Mathlib

/-! Verification of the QuantumSentinel earthquake classification pipeline
(src/python_models/enhanced_lstm.py) against its specification.

The Python source is shallowly embedded: magnitudes are rationals,
pandas, numpy and torch operations are translated to list and function
operations, and the stochastic part of training (the per-epoch weighted
validation recall produced by the learned model) is abstracted as an
oracle sequence of rationals. -/

/-- Severity bin of a magnitude, embedding the source line
pd.cut(magnitude, bins=[0, 4, 5, 6, 7, inf], labels=[0,1,2,3,4],
include_lowest=True).cat.codes. pd.cut uses right-closed intervals by
default, and include_lowest closes the first interval on the left, so the
realized partition is [0,4], (4,5], (5,6], (6,7], (7, inf); a value below
0 falls in no interval and gets code -1. -/
def magBin (m : ℚ) : ℤ :=
  if m < 0 then -1
  else if m ≤ 4 then 0
  else if m ≤ 5 then 1
  else if m ≤ 6 then 2
  else if m ≤ 7 then 3
  else 4

/-- MinMaxScaler.fit_transform on one column with the default feature range
(0,1): x maps to (x - min) / (max - min), where sklearn replaces a zero
range by 1 before dividing. -/
def minMaxScale (xs : List ℚ) : List ℚ :=
  match xs with
  | [] => []
  | x :: _ =>
    let lo := xs.foldr min x
    let hi := xs.foldr max x
    let d := if hi - lo = 0 then 1 else hi - lo
    xs.map fun v => (v - lo) / d

/-- prepare_sequences from the source. The input list is the magnitude
column of the time-sorted dataframe; for i in range(N - L), window i is the
slice of scaled magnitudes at positions i..i+L-1 and its label is the bin
of the raw magnitude at position i+L. -/
def prepare_sequences (mags : List ℚ) (L : ℕ) : List (List ℚ × ℤ) :=
  (List.range (mags.length - L)).map fun i =>
    (((minMaxScale mags).drop i).take L, magBin (mags.getD (i + L) 0))

lemma minMaxScale_length (xs : List ℚ) : (minMaxScale xs).length = xs.length := by
  cases xs <;> simp [minMaxScale]

lemma drop_getD (l : List ℚ) : ∀ (i j : ℕ), (l.drop i).getD j 0 = l.getD (i + j) 0 := by
  induction l with
  | nil => intro i j; simp
  | cons a t ih =>
    intro i j
    cases i with
    | zero => simp
    | succ n =>
      rw [List.drop_succ_cons, ih n j]
      have h : n + 1 + j = (n + j) + 1 := by omega
      rw [h]
      simp

lemma take_getD (l : List ℚ) : ∀ (n j : ℕ), j < n → (l.take n).getD j 0 = l.getD j 0 := by
  induction l with
  | nil => intro n j _; simp
  | cons a t ih =>
    intro n j h
    cases n with
    | zero => omega
    | succ m =>
      rw [List.take_succ_cons]
      cases j with
      | zero => simp
      | succ jj =>
        simp only [List.getD_eq_getElem?_getD, List.getElem?_cons_succ]
        have := ih m jj (by omega)
        simpa [List.getD_eq_getElem?_getD] using this

lemma getD_range_map {α : Type} (n : ℕ) (f : ℕ → α) (d : α) (i : ℕ) (h : i < n) :
    ((List.range n).map f).getD i d = f i := by
  rw [List.getD_eq_getElem?_getD, List.getElem?_map, List.getElem?_range h]
  rfl

/-- Claim C1, counterexample: the claim asserts boundaries inclusive on the
lower edge, with magnitude 4.0 in bin 1 and magnitude 7.0 in bin 4; the code
(pd.cut with default right-closed intervals) puts 4.0 in bin 0 and 7.0 in
bin 3. -/
theorem c1_boundary_counterexample : magBin 4 = 0 ∧ magBin 7 = 3 := by decide

/-- Claim C1, amended: every magnitude m > 0 is assigned exactly one bin in
0..4, the bin is monotone non-decreasing in m, and each boundary is inclusive
on the upper edge, per the partition [0,4], (4,5], (5,6], (6,7], (7, inf). -/
theorem c1_bin_partition (m : ℚ) (hm : 0 < m) :
    (0 ≤ magBin m ∧ magBin m ≤ 4) ∧
    (∀ x : ℚ, m ≤ x → magBin m ≤ magBin x) ∧
    (m ≤ 4 → magBin m = 0) ∧
    (4 < m → m ≤ 5 → magBin m = 1) ∧
    (5 < m → m ≤ 6 → magBin m = 2) ∧
    (6 < m → m ≤ 7 → magBin m = 3) ∧
    (7 < m → magBin m = 4) := by
  unfold magBin
  refine ⟨?_, ?_, ?_, ?_, ?_, ?_, ?_⟩ <;>
    intros <;>
    split_ifs <;>
    first
    | omega
    | (exfalso; linarith)

/-- Claim C1 amended, witness at m = 9/2 and the monotone part at 9/2 ≤ 8. -/
theorem c1_bin_partition_witness :
    (0 < (9/2 : ℚ)) ∧ magBin (9/2) = 1 ∧ magBin (9/2) ≤ magBin 8 :=
  ⟨by norm_num,
   (c1_bin_partition (9/2) (by norm_num)).2.2.2.1 (by norm_num) (by norm_num),
   (c1_bin_partition (9/2) (by norm_num)).2.1 8 (by norm_num)⟩

/-- Claim C2: for N readings and window length L the windowing transform
produces exactly max(N-L, 0) pairs; pair i carries the scaled magnitudes at
positions i..i+L-1 as its window and the bin of the raw magnitude at
position i+L as its label; when N is at most L it produces no pairs. -/
theorem c2_windowing (mags : List ℚ) (L : ℕ) :
    ((prepare_sequences mags L).length : ℤ) = max ((mags.length : ℤ) - (L : ℤ)) 0 ∧
    (∀ i, i < (prepare_sequences mags L).length →
      ((prepare_sequences mags L).getD i ([], 0)).2 = magBin (mags.getD (i + L) 0) ∧
      ((prepare_sequences mags L).getD i ([], 0)).1.length = L ∧
      (∀ j, j < L →
        ((prepare_sequences mags L).getD i ([], 0)).1.getD j 0 =
          (minMaxScale mags).getD (i + j) 0)) ∧
    (mags.length ≤ L → prepare_sequences mags L = []) := by
  have hlen : (prepare_sequences mags L).length = mags.length - L := by
    simp [prepare_sequences]
  refine ⟨?_, ?_, ?_⟩
  · rw [hlen]; omega
  · intro i hi
    rw [hlen] at hi
    have hacc : (prepare_sequences mags L).getD i ([], 0) =
        (((minMaxScale mags).drop i).take L, magBin (mags.getD (i + L) 0)) := by
      unfold prepare_sequences
      exact getD_range_map (mags.length - L) _ _ i hi
    rw [hacc]
    refine ⟨rfl, ?_, ?_⟩
    · rw [List.length_take, List.length_drop, minMaxScale_length]
      omega
    · intro j hj
      rw [take_getD _ _ _ hj, drop_getD]
  · intro hle
    have h0 : mags.length - L = 0 := by omega
    unfold prepare_sequences
    rw [h0]
    simp

/-- Claim C2, witness on the four readings [3, 5, 4, 6] with L = 2, plus the
empty-output case on a single reading with L = 3. -/
theorem c2_windowing_witness :
    ((prepare_sequences [(3:ℚ), 5, 4, 6] 2).length : ℤ) =
      max ((([(3:ℚ), 5, 4, 6].length : ℤ)) - (2:ℤ)) 0 ∧
    ((prepare_sequences [(3:ℚ), 5, 4, 6] 2).getD 0 ([], 0)).2 =
      magBin ([(3:ℚ), 5, 4, 6].getD 2 0) ∧
    ((prepare_sequences [(3:ℚ), 5, 4, 6] 2).getD 0 ([], 0)).1.getD 1 0 =
      (minMaxScale [(3:ℚ), 5, 4, 6]).getD 1 0 ∧
    prepare_sequences [(1:ℚ)] 3 = [] :=
  ⟨(c2_windowing [(3:ℚ), 5, 4, 6] 2).1,
   ((c2_windowing [(3:ℚ), 5, 4, 6] 2).2.1 0 (by decide)).1,
   (((c2_windowing [(3:ℚ), 5, 4, 6] 2).2.1 0 (by decide)).2.2 1 (by decide)),
   (c2_windowing [(1:ℚ)] 3).2.2 (by decide)⟩

/-- The 1e-6 additive guard used in class_weights = 1.0 / (class_counts + 1e-6). -/
def epsQ : ℚ := 1 / 1000000

/-- The fixed severity amplification vector [1.0, 1.2, 1.5, 2.0, 3.0]. -/
def ampVec : List ℚ := [1, 12/10, 15/10, 2, 3]

/-- Length of the np.bincount output: 0 for empty input, otherwise the
maximum element plus one (negative inputs are rejected before this point). -/
def bcLen (y : List ℤ) : ℕ :=
  match y with
  | [] => 0
  | _ => (y.foldr max 0).toNat + 1

/-- np.bincount on the realized label list (assuming non-negative entries,
which numpy checks separately): entry b counts the occurrences of b. -/
def bincountZ (y : List ℤ) : List ℕ :=
  (List.range (bcLen y)).map fun b : ℕ => y.count (b : ℤ)

/-- Elementwise product of two 1-D numpy arrays under broadcasting: equal
lengths multiply pointwise, a length-1 operand is stretched, and any other
length combination raises a ValueError. -/
def broadcastMul (a b : List ℚ) : Except String (List ℚ) :=
  if a.length = b.length then Except.ok (List.zipWith (fun x y => x * y) a b)
  else if a.length = 1 then Except.ok (b.map fun x => a.headD 0 * x)
  else if b.length = 1 then Except.ok (a.map fun x => x * b.headD 0)
  else Except.error "operands could not be broadcast together"

/-- class_weights / class_weights.sum(). -/
def normalizeW (w : List ℚ) : List ℚ := w.map fun x => x / w.sum

/-- The class-weight computation of train_model: reject negative labels as
np.bincount does, take inverse counts guarded by 1e-6, multiply by the
amplification vector under numpy broadcasting, and renormalize to sum 1.
A broadcast failure is an uncaught exception inside train_model. -/
def classWeightsE (y : List ℤ) : Except String (List ℚ) :=
  if y.any (fun b => decide (b < 0)) then
    Except.error "bincount: first argument must be non-negative"
  else
    (broadcastMul ((bincountZ y).map fun n : ℕ => 1 / ((n : ℚ) + epsQ)) ampVec).map normalizeW

/-- True for a normal return, false for a raised exception. -/
def isOkCW : Except String (List ℚ) → Bool
  | Except.ok _ => true
  | Except.error _ => false

/-- The returned weight list of a normal return, [] for an exception. -/
def okList : Except String (List ℚ) → List ℚ
  | Except.ok l => l
  | Except.error _ => []

/-- The label list all five bins of which are realized, with bin 4 four
times as frequent as bin 0. -/
def ycx : List ℤ := [0, 1, 2, 3, 4, 4, 4, 4]

lemma foldr_max_nonneg (y : List ℤ) : 0 ≤ y.foldr max 0 := by
  induction y with
  | nil => exact le_refl 0
  | cons a t ih => exact le_trans ih (le_max_right a _)

lemma foldr_max_le (y : List ℤ) (c : ℤ) (h0 : 0 ≤ c) (h : ∀ b ∈ y, b ≤ c) :
    y.foldr max 0 ≤ c := by
  induction y with
  | nil => exact h0
  | cons a t ih =>
    exact max_le (h a (List.mem_cons_self a t)) (ih fun b hb => h b (List.mem_cons_of_mem a hb))

lemma le_foldr_max (y : List ℤ) (b : ℤ) (hb : b ∈ y) : b ≤ y.foldr max 0 := by
  induction y with
  | nil => cases hb
  | cons a t ih =>
    rcases List.mem_cons.1 hb with h | h
    · rw [h]; exact le_max_left a _
    · exact le_trans (ih h) (le_max_right a _)

lemma isOkCW_map (x : Except String (List ℚ)) (f : List ℚ → List ℚ) :
    isOkCW (x.map f) = isOkCW x := by
  cases x <;> rfl


/-- Mutable state of the training loop: current validation recall, number
of completed epochs, best recall so far, and the epochs at which the
checkpoint file was overwritten (most recent first). The field holding the
recall variable is named recallV because recall is a reserved word here. -/
structure TrainState where
  recallV : ℚ
  epoch : ℕ
  bestRecall : ℚ
  savedEpochs : List ℕ
deriving DecidableEq

/-- One iteration of the while loop: run one training epoch, compute the
validation recall r(epoch+1), and overwrite the checkpoint exactly when it
strictly exceeds best_recall. The recall sequence r abstracts the metric
computed from the learned model. -/
def trainStep (r : ℕ → ℚ) (s : TrainState) : TrainState :=
  let newRecall := r (s.epoch + 1)
  { recallV := newRecall
    epoch := s.epoch + 1
    bestRecall := if s.bestRecall < newRecall then newRecall else s.bestRecall
    savedEpochs := if s.bestRecall < newRecall then (s.epoch + 1) :: s.savedEpochs
                   else s.savedEpochs }

/-- The while loop: continue while recall < 0.95 and epoch < 100. The fuel
argument only bounds the recursion; 101 units are enough because the epoch
counter grows by one per iteration and is capped at 100. -/
def trainRun (r : ℕ → ℚ) : ℕ → TrainState → TrainState
  | 0, s => s
  | fuel + 1, s =>
    if s.recallV < 95/100 ∧ s.epoch < 100 then trainRun r fuel (trainStep r s) else s

/-- recall = 0.0, epoch = 0, best_recall = 0.0, no checkpoint written. -/
def initState : TrainState :=
  { recallV := 0, epoch := 0, bestRecall := 0, savedEpochs := [] }

/-- The state when the while loop exits. -/
def finalState (r : ℕ → ℚ) : TrainState := trainRun r 101 initState

/-- The final_epoch value returned by train_model. -/
def finalEpoch (r : ℕ → ℚ) : ℕ := (finalState r).epoch

/-- Recall as seen by the loop after e completed epochs: the initial 0.0
before the first epoch, r e afterwards. -/
def recallOf (r : ℕ → ℚ) : ℕ → ℚ
  | 0 => 0
  | k + 1 => r (k + 1)

/-- Best recall after e completed epochs: the maximum of 0 and r 1 .. r e. -/
def bestUpTo (r : ℕ → ℚ) : ℕ → ℚ
  | 0 => 0
  | k + 1 => max (bestUpTo r k) (r (k + 1))

lemma recallOf_pos (r : ℕ → ℚ) (k : ℕ) (h : 1 ≤ k) : recallOf r k = r k := by
  cases k with
  | zero => omega
  | succ n => rfl

lemma if_lt_max (a b : ℚ) : (if a < b then b else a) = max a b := by
  split_ifs with h
  · exact (max_eq_right h.le).symm
  · exact (max_eq_left (not_lt.1 h)).symm

lemma bestUpTo_lt_iff (r : ℕ → ℚ) (n : ℕ) (x : ℚ) :
    bestUpTo r n < x ↔ (0 < x ∧ ∀ j, 1 ≤ j → j ≤ n → r j < x) := by
  induction n with
  | zero =>
    constructor
    · intro h
      exact ⟨h, fun j h1 h2 => absurd (le_trans h1 h2) (by omega)⟩
    · intro h
      exact h.1
  | succ n ihn =>
    rw [show bestUpTo r (n + 1) = max (bestUpTo r n) (r (n + 1)) from rfl, max_lt_iff, ihn]
    constructor
    · rintro ⟨⟨hx, hall⟩, hn1⟩
      refine ⟨hx, fun j h1 h2 => ?_⟩
      rcases Nat.lt_or_ge j (n + 1) with h | h
      · exact hall j h1 (by omega)
      · have hj : j = n + 1 := by omega
        rw [hj]; exact hn1
    · rintro ⟨hx, hall⟩
      exact ⟨⟨hx, fun j h1 h2 => hall j h1 (by omega)⟩, hall (n + 1) (by omega) (by omega)⟩

lemma trainStep_eq (r : ℕ → ℚ) (e : ℕ) (l : List ℕ) :
    trainStep r ⟨recallOf r e, e, bestUpTo r e, l⟩ =
      ⟨recallOf r (e + 1), e + 1, bestUpTo r (e + 1),
       if bestUpTo r e < r (e + 1) then (e + 1) :: l else l⟩ := by
  simp only [trainStep, TrainState.mk.injEq, true_and, and_true]
  rw [show bestUpTo r (e + 1) = max (bestUpTo r e) (r (e + 1)) from rfl]
  exact ⟨rfl, if_lt_max _ _⟩

/-- Characterization of the loop from any reachable state: it ends at an
epoch K at which the loop condition fails, having run every epoch strictly
between, with recall, best recall and the checkpoint history determined by
the recall sequence. -/
lemma trainRun_char (r : ℕ → ℚ) :
    ∀ (fuel e : ℕ) (l : List ℕ),
      e ≤ 100 → 100 - e < fuel →
      (∀ k, k ∈ l ↔ 1 ≤ k ∧ k ≤ e ∧ bestUpTo r (k - 1) < r k) →
      ∃ K l2,
        trainRun r fuel ⟨recallOf r e, e, bestUpTo r e, l⟩ =
          ⟨recallOf r K, K, bestUpTo r K, l2⟩ ∧
        e ≤ K ∧ K ≤ 100 ∧
        (∀ k, k ∈ l2 ↔ 1 ≤ k ∧ k ≤ K ∧ bestUpTo r (k - 1) < r k) ∧
        (¬ (recallOf r K < 95/100 ∧ K < 100)) ∧
        (∀ j, e ≤ j → j < K → recallOf r j < 95/100 ∧ j < 100) := by
  intro fuel
  induction fuel with
  | zero =>
    intro e l he hf hl
    omega
  | succ n ih =>
    intro e l he hf hl
    by_cases hc : recallOf r e < 95/100 ∧ e < 100
    · have hrun : trainRun r (n + 1) ⟨recallOf r e, e, bestUpTo r e, l⟩ =
          trainRun r n (trainStep r ⟨recallOf r e, e, bestUpTo r e, l⟩) := by
        rw [trainRun]
        exact if_pos hc
      have hl2 : ∀ k, k ∈ (if bestUpTo r e < r (e + 1) then (e + 1) :: l else l) ↔
          1 ≤ k ∧ k ≤ e + 1 ∧ bestUpTo r (k - 1) < r k := by
        intro k
        split_ifs with hb
        · rw [List.mem_cons, hl k]
          constructor
          · rintro (h | ⟨h1, h2, h3⟩)
            · subst h
              exact ⟨by omega, by omega, by simpa using hb⟩
            · exact ⟨h1, by omega, h3⟩
          · rintro ⟨h1, h2, h3⟩
            rcases Nat.lt_or_ge k (e + 1) with h | h
            · exact Or.inr ⟨h1, by omega, h3⟩
            · left
              omega
        · rw [hl k]
          constructor
          · rintro ⟨h1, h2, h3⟩
            exact ⟨h1, by omega, h3⟩
          · rintro ⟨h1, h2, h3⟩
            refine ⟨h1, ?_, h3⟩
            by_contra hgt
            have hk : k = e + 1 := by omega
            rw [hk] at h3
            simp only [Nat.add_sub_cancel] at h3
            exact hb h3
      obtain ⟨K, lK, heq, hKe, hK100, hlK, hstop, hmid⟩ :=
        ih (e + 1) (if bestUpTo r e < r (e + 1) then (e + 1) :: l else l)
          (by omega) (by omega) hl2
      refine ⟨K, lK, ?_, by omega, hK100, hlK, hstop, ?_⟩
      · rw [hrun, trainStep_eq]
        exact heq
      · intro j hj1 hj2
        rcases Nat.lt_or_ge j (e + 1) with h | h
        · have hj : j = e := by omega
          rw [hj]
          exact hc
        · exact hmid j h hj2
    · refine ⟨e, l, ?_, le_refl e, he, hl, hc, fun j hj1 hj2 => absurd hj2 (by omega)⟩
      rw [trainRun]
      exact if_neg hc

/-- The final state of a run: an epoch K in 1..100 at which the loop
condition fails while it held at every earlier epoch. -/
lemma finalState_char (r : ℕ → ℚ) :
    ∃ K l2,
      finalState r = ⟨recallOf r K, K, bestUpTo r K, l2⟩ ∧
      1 ≤ K ∧ K ≤ 100 ∧
      (∀ k, k ∈ l2 ↔ 1 ≤ k ∧ k ≤ K ∧ bestUpTo r (k - 1) < r k) ∧
      (¬ (recallOf r K < 95/100 ∧ K < 100)) ∧
      (∀ j, j < K → recallOf r j < 95/100 ∧ j < 100) := by
  have h0 : ∀ k : ℕ, k ∈ ([] : List ℕ) ↔ 1 ≤ k ∧ k ≤ 0 ∧ bestUpTo r (k - 1) < r k := by
    intro k
    simp only [List.not_mem_nil, false_iff]
    rintro ⟨h1, h2, _⟩
    omega
  obtain ⟨K, l2, heq, hKe, hK100, hlK, hstop, hmid⟩ := trainRun_char r 101 0 [] (by omega) (by omega) h0
  have hK1 : 1 ≤ K := by
    by_contra hlt
    have hK0 : K = 0 := by omega
    rw [hK0] at hstop
    exact hstop ⟨by norm_num [recallOf], by omega⟩
  exact ⟨K, l2, heq, hK1, hK100, hlK, hstop, fun j hj => hmid j (by omega) hj⟩

/-- Claim C3: training stops at the first epoch bound hit. If the weighted
validation recall first reaches 0.95 at an epoch k < 100, final_epoch = k;
if it stays below 0.95 at every epoch, final_epoch = 100. The loop condition
recall < 0.95 AND epoch < 100 is the definition of trainRun. -/
theorem c3_termination (r : ℕ → ℚ) (k : ℕ) :
    ((1 ≤ k ∧ k < 100 ∧ 95/100 ≤ r k ∧ (∀ j, 1 ≤ j → j < k → r j < 95/100)) →
      finalEpoch r = k) ∧
    ((∀ j, 1 ≤ j → j ≤ 100 → r j < 95/100) → finalEpoch r = 100) := by
  obtain ⟨K, l2, heq, hK1, hK100, hlK, hstop, hpre⟩ := finalState_char r
  have hE : finalEpoch r = K := by rw [finalEpoch, heq]
  constructor
  · rintro ⟨hk1, hk100, hrk, hmin⟩
    rw [hE]
    by_contra hne
    rcases Nat.lt_or_ge K k with h | h
    · have hKr : r K < 95/100 := hmin K hK1 h
      rw [recallOf_pos r K hK1] at hstop
      exact hstop ⟨hKr, by omega⟩
    · have hkK : k < K := by omega
      have := (hpre k hkK).1
      rw [recallOf_pos r k hk1] at this
      linarith
  · intro hnever
    rw [hE]
    by_contra hne
    have hKlt : K < 100 := by omega
    have h95 : 95/100 ≤ recallOf r K := by
      by_contra hr
      exact hstop ⟨not_le.1 hr, hKlt⟩
    rw [recallOf_pos r K hK1] at h95
    have := hnever K hK1 (by omega)
    linarith

/-- A recall sequence that first reaches 0.95 at epoch 3. -/
def rEx3 : ℕ → ℚ := fun j => if 3 ≤ j then 1 else 0

/-- Claim C3, witness: with recall first reaching 0.95 at epoch 3 the run
stops at epoch 3; with recall stuck at 1/2 the run stops at epoch 100. -/
theorem c3_termination_witness :
    finalEpoch rEx3 = 3 ∧ finalEpoch (fun _ => 1/2) = 100 :=
  ⟨(c3_termination rEx3 3).1
     ⟨by norm_num, by norm_num, by norm_num [rEx3],
      fun j h1 h2 => by interval_cases j <;> norm_num [rEx3]⟩,
   (c3_termination (fun _ => 1/2) 0).2 (fun j _ _ => by norm_num)⟩

/-- Claim C4: within a run, the checkpoint is overwritten after epoch k if
and only if k is an epoch of the run whose validation recall strictly
exceeds the recall of every earlier epoch as well as the initial best value
0; and at loop exit best_recall equals the maximum of 0 and all epoch
recalls of the run. -/
theorem c4_checkpoint (r : ℕ → ℚ) (k : ℕ) :
    (k ∈ (finalState r).savedEpochs ↔
      (1 ≤ k ∧ k ≤ finalEpoch r ∧ 0 < r k ∧ ∀ j, 1 ≤ j → j < k → r j < r k)) ∧
    (finalState r).bestRecall = bestUpTo r (finalEpoch r) := by
  obtain ⟨K, l2, heq, hK1, hK100, hlK, hstop, hpre⟩ := finalState_char r
  have hE : finalEpoch r = K := by rw [finalEpoch, heq]
  rw [heq, hE]
  constructor
  · show k ∈ l2 ↔ _
    rw [hlK k]
    constructor
    · rintro ⟨h1, h2, h3⟩
      rw [bestUpTo_lt_iff] at h3
      exact ⟨h1, h2, h3.1, fun j hj1 hj2 => h3.2 j hj1 (by omega)⟩
    · rintro ⟨h1, h2, h3, h4⟩
      refine ⟨h1, h2, ?_⟩
      rw [bestUpTo_lt_iff]
      exact ⟨h3, fun j hj1 hj2 => h4 j hj1 (by omega)⟩
  · rfl

/-- Structured value printed by the train command: either the dictionary
with an error field produced when the data source fails, or the success
dictionary, of which the final epoch and the final recall are kept here. -/
inductive TrainOut
  | errJson (msg : String)
  | completed (finalEp : ℕ) (finalRecall : ℚ)
deriving DecidableEq

deriving instance DecidableEq for Except

/-- train_model from the source. A None load models a failed
load_earthquake_data and returns the structured error dictionary; otherwise
the windows are built, the first int(0.8 * N) of them (modeled as
8 * N / 10) give the training labels, and the class-weight computation
runs. Except.error models an exception escaping train_model, which has no
handler of its own; the rest of the epoch loop always terminates, so on a
successful weight computation the final epoch and recall of the abstracted
loop are returned. -/
def train_model (load : Option (List ℚ)) (r : ℕ → ℚ) : Except String TrainOut :=
  match load with
  | none => Except.ok (TrainOut.errJson "Failed to load data")
  | some mags =>
    let seqs := prepare_sequences mags 10
    let splitIdx := 8 * seqs.length / 10
    let yTrain := (seqs.take splitIdx).map Prod.snd
    match classWeightsE yTrain with
    | Except.error e => Except.error e
    | Except.ok _ => Except.ok (TrainOut.completed (finalEpoch r) ((finalState r).recallV))

lemma any_neg_false (y : List ℤ) (hnn : ∀ b ∈ y, 0 ≤ b) :
    (y.any fun b => decide (b < 0)) = false := by
  rw [List.any_eq_false]
  intro b hb
  simp only [decide_eq_true_eq, not_lt]
  exact hnn b hb

lemma foldr_max_eq_four (y : List ℤ) (h4 : (4:ℤ) ∈ y) (hb : ∀ b ∈ y, b ≤ 4) :
    y.foldr max 0 = 4 :=
  le_antisymm (foldr_max_le y 4 (by norm_num) hb) (le_foldr_max y 4 h4)

lemma bincountZ_of_max4 (a : ℤ) (t : List ℤ) (hmax : (a :: t).foldr max 0 = 4) :
    bincountZ (a :: t) =
      [(a :: t).count (0:ℤ), (a :: t).count (1:ℤ), (a :: t).count (2:ℤ),
       (a :: t).count (3:ℤ), (a :: t).count (4:ℤ)] := by
  unfold bincountZ bcLen
  rw [hmax]
  rfl

lemma map_div_sum (l : List ℚ) (s : ℚ) : (l.map fun x => x / s).sum = l.sum / s := by
  induction l with
  | nil => simp
  | cons a t ih => simp [ih, add_div]

lemma sum_five (a b c d e : ℚ) : [a, b, c, d, e].sum = a + (b + (c + (d + (e + 0)))) := rfl

lemma normalizeW_sum (w : List ℚ) (h : w.sum ≠ 0) : (normalizeW w).sum = 1 := by
  unfold normalizeW
  rw [map_div_sum]
  exact div_self h

/-- Claim C10, amended: for non-negative labels, the class-weight
computation returns normally exactly when the label list is non-empty and
its maximum is 0 or 4. A maximum of 4 gives a 5-entry bincount matching the
amplification vector; a maximum of 0 gives a 1-entry bincount that numpy
broadcasting stretches, so no exception is raised there either; a maximum
of 1, 2 or 3, or an empty label list, raises the broadcast ValueError. -/
theorem c10_bincount_broadcast (y : List ℤ) (hnn : ∀ b ∈ y, 0 ≤ b) :
    isOkCW (classWeightsE y) = true ↔
      (y ≠ [] ∧ (y.foldr max 0 = 0 ∨ y.foldr max 0 = 4)) := by
  have hcond : ¬((y.any fun b => decide (b < 0)) = true) := by
    rw [any_neg_false y hnn]
    simp
  unfold classWeightsE
  rw [if_neg hcond, isOkCW_map]
  have hlenA : ((bincountZ y).map fun n : ℕ => 1 / ((n : ℚ) + epsQ)).length = bcLen y := by
    simp [bincountZ]
  have hlenB : ampVec.length = 5 := rfl
  unfold broadcastMul
  split_ifs with h1 h2 h3
  · simp only [isOkCW, true_iff]
    rw [hlenA, hlenB] at h1
    cases y with
    | nil => simp [bcLen] at h1
    | cons a t =>
      have h1n : ((a :: t).foldr max 0).toNat + 1 = 5 := h1
      have hm0 : 0 ≤ (a :: t).foldr max 0 := foldr_max_nonneg _
      exact ⟨by simp, Or.inr (by omega)⟩
  · simp only [isOkCW, true_iff]
    rw [hlenA] at h2
    cases y with
    | nil => simp [bcLen] at h2
    | cons a t =>
      have h2n : ((a :: t).foldr max 0).toNat + 1 = 1 := h2
      have hm0 : 0 ≤ (a :: t).foldr max 0 := foldr_max_nonneg _
      exact ⟨by simp, Or.inl (by omega)⟩
  · exact absurd h3 (by norm_num [ampVec])
  · simp only [isOkCW, Bool.false_eq_true, false_iff]
    rintro ⟨hne, hmax⟩
    rw [hlenA, hlenB] at h1
    rw [hlenA] at h2
    cases y with
    | nil => exact hne rfl
    | cons a t =>
      have hm0 : 0 ≤ (a :: t).foldr max 0 := foldr_max_nonneg _
      have hb1 : ¬(((a :: t).foldr max 0).toNat + 1 = 5) := h1
      have hb2 : ¬(((a :: t).foldr max 0).toNat + 1 = 1) := h2
      omega

/-- Claim C10 amended, witness: labels [0, 1] have maximum 1 and the
computation raises; the iff specializes accordingly. -/
theorem c10_bincount_broadcast_witness :
    isOkCW (classWeightsE [0, 1]) = true ↔
      (([0, 1] : List ℤ) ≠ [] ∧
        (([0, 1] : List ℤ).foldr max 0 = 0 ∨ ([0, 1] : List ℤ).foldr max 0 = 4)) :=
  c10_bincount_broadcast [0, 1] (by decide)

/-- Claim C10, counterexample: a training split whose labels do not include
every bin up to 4. All fifteen readings have magnitude 3, so all four
training labels are bin 0; np.bincount returns the single entry [4], which
broadcasts against the 5-entry amplification vector instead of failing, and
train_model returns its normal result rather than raising. -/
theorem c10_counterexample :
    ((prepare_sequences (List.replicate 15 (3:ℚ)) 10).take
        (8 * (prepare_sequences (List.replicate 15 (3:ℚ)) 10).length / 10)).map Prod.snd =
      [0, 0, 0, 0] ∧
    train_model (some (List.replicate 15 (3:ℚ))) (fun _ => 1) =
      Except.ok (TrainOut.completed 1 1) := by
  have hy : ((prepare_sequences (List.replicate 15 (3:ℚ)) 10).take
      (8 * (prepare_sequences (List.replicate 15 (3:ℚ)) 10).length / 10)).map Prod.snd =
      [0, 0, 0, 0] := by decide
  refine ⟨hy, ?_⟩
  obtain ⟨K, l2, heq, hK1, hK100, hlK, hstop, hpre⟩ := finalState_char (fun _ => (1:ℚ))
  have hK : K = 1 := by
    by_contra hne
    have hKge : 2 ≤ K := by omega
    have h1lt := (hpre 1 (by omega)).1
    rw [recallOf_pos _ 1 (by omega)] at h1lt
    norm_num at h1lt
  have h1 : finalEpoch (fun _ => (1:ℚ)) = 1 := by
    rw [finalEpoch, heq, hK]
  have h2 : (finalState (fun _ => (1:ℚ))).recallV = 1 := by
    rw [heq, hK]
    rfl
  simp only [train_model, hy]
  obtain ⟨w, hw⟩ : ∃ w, classWeightsE [0, 0, 0, 0] = Except.ok w := ⟨_, rfl⟩
  rw [hw, h1, h2]

/-- Claim C5, counterexample: a non-degenerate label distribution (every
bin realized) for which the normalized class-weight entry of bin 4 is
strictly below the entry of bin 0: with counts [1,1,1,1,4] the inverse
frequency of bin 4 is small enough that even the 3x amplification leaves it
under bin 0. -/
theorem c5_weights_counterexample :
    (∀ b : Fin 5, ((b : ℕ) : ℤ) ∈ ycx) ∧
    (okList (classWeightsE ycx)).getD 4 0 < (okList (classWeightsE ycx)).getD 0 0 := by
  constructor
  · decide
  · have h : classWeightsE ycx = Except.ok (normalizeW
        [1 / (((1:ℕ) : ℚ) + epsQ) * 1, 1 / (((1:ℕ) : ℚ) + epsQ) * (12/10),
         1 / (((1:ℕ) : ℚ) + epsQ) * (15/10), 1 / (((1:ℕ) : ℚ) + epsQ) * 2,
         1 / (((4:ℕ) : ℚ) + epsQ) * 3]) := by rfl
    rw [h]
    norm_num [okList, normalizeW, epsQ]

/-- Claim C5, amended: for every realized label distribution in which all
five bins occur, the class-weight vector sums to 1; its entry for bin 4
strictly exceeds its entry for bin 0 whenever the count of bin-4 labels is
at most three times the count of bin-0 labels (without such a bound the
comparison can reverse, as bin 4 grows more frequent, while the sum stays
1 regardless). -/
theorem c5_weights_amended (y : List ℤ)
    (hy : ∀ b : Fin 5, ((b : ℕ) : ℤ) ∈ y)
    (hb : ∀ b ∈ y, b ≤ 4)
    (hnn : ∀ b ∈ y, 0 ≤ b) :
    (okList (classWeightsE y)).sum = 1 ∧
    (y.count (4:ℤ) ≤ 3 * y.count (0:ℤ) →
      (okList (classWeightsE y)).getD 0 0 < (okList (classWeightsE y)).getD 4 0) := by
  obtain ⟨a, t, rfl⟩ : ∃ a t, y = a :: t := by
    cases y with
    | nil => simpa using hy 4
    | cons a t => exact ⟨a, t, rfl⟩
  have h4 : (4:ℤ) ∈ a :: t := by simpa using hy 4
  have hmax : (a :: t).foldr max 0 = 4 := foldr_max_eq_four _ h4 hb
  have hcond : ¬(((a :: t).any fun b => decide (b < 0)) = true) := by
    rw [any_neg_false _ hnn]
    simp
  have hcw : classWeightsE (a :: t) = Except.ok (normalizeW
      [1 / (((a :: t).count (0:ℤ) : ℚ) + epsQ) * 1,
       1 / (((a :: t).count (1:ℤ) : ℚ) + epsQ) * (12/10),
       1 / (((a :: t).count (2:ℤ) : ℚ) + epsQ) * (15/10),
       1 / (((a :: t).count (3:ℤ) : ℚ) + epsQ) * 2,
       1 / (((a :: t).count (4:ℤ) : ℚ) + epsQ) * 3]) := by
    unfold classWeightsE
    rw [if_neg hcond, bincountZ_of_max4 a t hmax]
    rfl
  have heps : (0:ℚ) < epsQ := by norm_num [epsQ]
  have hpos : ∀ n : ℕ, (0:ℚ) < 1 / ((n : ℚ) + epsQ) := fun n =>
    one_div_pos.2 (add_pos_of_nonneg_of_pos (Nat.cast_nonneg n) heps)
  have t0 : (0:ℚ) < 1 / (((a :: t).count (0:ℤ) : ℚ) + epsQ) * 1 :=
    mul_pos (hpos _) one_pos
  have t1 : (0:ℚ) < 1 / (((a :: t).count (1:ℤ) : ℚ) + epsQ) * (12/10) :=
    mul_pos (hpos _) (by norm_num)
  have t2 : (0:ℚ) < 1 / (((a :: t).count (2:ℤ) : ℚ) + epsQ) * (15/10) :=
    mul_pos (hpos _) (by norm_num)
  have t3 : (0:ℚ) < 1 / (((a :: t).count (3:ℤ) : ℚ) + epsQ) * 2 :=
    mul_pos (hpos _) (by norm_num)
  have t4 : (0:ℚ) < 1 / (((a :: t).count (4:ℤ) : ℚ) + epsQ) * 3 :=
    mul_pos (hpos _) (by norm_num)
  have hsum : (0:ℚ) <
      [1 / (((a :: t).count (0:ℤ) : ℚ) + epsQ) * 1,
       1 / (((a :: t).count (1:ℤ) : ℚ) + epsQ) * (12/10),
       1 / (((a :: t).count (2:ℤ) : ℚ) + epsQ) * (15/10),
       1 / (((a :: t).count (3:ℤ) : ℚ) + epsQ) * 2,
       1 / (((a :: t).count (4:ℤ) : ℚ) + epsQ) * 3].sum := by
    rw [sum_five]
    exact add_pos t0 (add_pos t1 (add_pos t2 (add_pos t3 (by simpa using t4))))
  constructor
  · rw [hcw]
    simp only [okList]
    exact normalizeW_sum _ (ne_of_gt hsum)
  · intro hc
    rw [hcw]
    simp only [okList, normalizeW, List.map_cons, List.map_nil]
    simp only [List.getD_eq_getElem?_getD, List.getElem?_cons_succ, List.getElem?_cons_zero,
      Option.getD_some]
    have key : 1 / (((a :: t).count (0:ℤ) : ℚ) + epsQ) * 1 <
        1 / (((a :: t).count (4:ℤ) : ℚ) + epsQ) * 3 := by
      rw [mul_one, div_mul_eq_mul_div, one_mul]
      rw [div_lt_div_iff₀ (add_pos_of_nonneg_of_pos (Nat.cast_nonneg _) heps)
        (add_pos_of_nonneg_of_pos (Nat.cast_nonneg _) heps)]
      have hcq : (((a :: t).count (4:ℤ) : ℕ) : ℚ) ≤ 3 * (((a :: t).count (0:ℤ) : ℕ) : ℚ) := by
        exact_mod_cast hc
      nlinarith [heps, hcq]
    exact div_lt_div_of_pos_right key hsum

/-- Claim C5 amended, witness on the label list [0, 1, 2, 3, 4], in which
every bin occurs once. -/
theorem c5_weights_amended_witness :
    (okList (classWeightsE [0, 1, 2, 3, 4])).sum = 1 ∧
    (okList (classWeightsE [0, 1, 2, 3, 4])).getD 0 0 <
      (okList (classWeightsE [0, 1, 2, 3, 4])).getD 4 0 :=
  ⟨(c5_weights_amended [0, 1, 2, 3, 4] (by decide) (by decide) (by decide)).1,
   (c5_weights_amended [0, 1, 2, 3, 4] (by decide) (by decide) (by decide)).2 (by decide)⟩

/-- The fixed bin-to-magnitude-range table of predict_magnitude, with the
open-ended top bin replaced by the finite pair (7, 10). -/
def magnitude_ranges : Fin 5 → ℚ × ℚ :=
  ![(0, 4), (4, 5), (5, 6), (6, 7), (7, 10)]

/-- The fixed bin-to-risk-level table of predict_magnitude. -/
def risk_levels : Fin 5 → String :=
  !["low", "low", "medium", "high", "extreme"]

/-- Learned parameters of the classifier, abstracted: a recurrent step
folded over the window, a start hidden state, and the feed-forward head
mapping the final hidden state to the 5 logits. The LSTM consumes a window
of any length, so nothing here depends on the training window length. -/
structure ModelParams (H : Type) where
  step : H → ℚ → H
  h0 : H
  head : H → Fin 5 → ℚ

/-- One forward pass: fold the window left to right and apply the head to
the final hidden state, as the classifier does with its last time step. -/
def forwardLogits {H : Type} (p : ModelParams H) (w : List ℚ) : Fin 5 → ℚ :=
  p.head (w.foldl p.step p.h0)

/-- Sum of the five entries of a score vector. -/
def sum5 (v : Fin 5 → ℚ) : ℚ := v 0 + v 1 + v 2 + v 3 + v 4

/-- torch.softmax over the five logits, with the exponential abstracted as
a function E that the theorems assume positive and strictly monotone. -/
def softmax (E : ℚ → ℚ) (z : Fin 5 → ℚ) : Fin 5 → ℚ :=
  fun i => E (z i) / sum5 (fun j => E (z j))

/-- One comparison step of torch.argmax: keep the earlier index on ties. -/
def argmaxStep (v : Fin 5 → ℚ) (best j : Fin 5) : Fin 5 :=
  if v best < v j then j else best

/-- torch.argmax over the five entries: the first index of maximum value. -/
def argmax5 (v : Fin 5 → ℚ) : Fin 5 :=
  argmaxStep v (argmaxStep v (argmaxStep v (argmaxStep v 0 1) 2) 3) 4

/-- torch.max over the five entries. -/
def vmax (v : Fin 5 → ℚ) : ℚ :=
  max (max (max (max (v 0) (v 1)) (v 2)) (v 3)) (v 4)

/-- The success dictionary returned by predict_magnitude. -/
structure PredictReport where
  magnitudeBin : Fin 5
  confidence : ℚ
  probabilityDistribution : List ℚ
  expectedMagnitude : ℚ
  riskLevel : String
  magnitudeRange : ℚ × ℚ
deriving DecidableEq

/-- Result of the predict operation: the success dictionary or the
structured error dictionary produced by its catch-all handler. -/
inductive PredictOut
  | report (rep : PredictReport)
  | errorOut (msg : String)
deriving DecidableEq

/-- predict_magnitude from the source: load the checkpoint (its failure is
caught and becomes the structured error), run one forward pass on the
supplied window, soft-max the logits, take argmax of the logits as the bin
and the maximum probability as the confidence, then attach the range, the
midpoint expected magnitude and the risk level. No window-length check
appears anywhere. -/
def predict_magnitude {H : Type} (E : ℚ → ℚ) (load : Except String (ModelParams H))
    (w : List ℚ) : PredictOut :=
  match load with
  | Except.error e => PredictOut.errorOut e
  | Except.ok p =>
    let z := forwardLogits p w
    let probs := softmax E z
    let bin := argmax5 z
    PredictOut.report
      { magnitudeBin := bin
        confidence := vmax probs
        probabilityDistribution := [probs 0, probs 1, probs 2, probs 3, probs 4]
        expectedMagnitude := ((magnitude_ranges bin).1 + (magnitude_ranges bin).2) / 2
        riskLevel := risk_levels bin
        magnitudeRange := magnitude_ranges bin }

/-- True exactly on a success dictionary. -/
def isReportB : PredictOut → Bool
  | PredictOut.report _ => true
  | PredictOut.errorOut _ => false

/-- The probability distribution of a success dictionary, [] on error. -/
def probDistOf : PredictOut → List ℚ
  | PredictOut.report rep => rep.probabilityDistribution
  | PredictOut.errorOut _ => []

lemma argmaxStep_le_left (v : Fin 5 → ℚ) (b j : Fin 5) : v b ≤ v (argmaxStep v b j) := by
  unfold argmaxStep
  split_ifs with h
  · exact h.le
  · exact le_refl _

lemma argmaxStep_le_right (v : Fin 5 → ℚ) (b j : Fin 5) : v j ≤ v (argmaxStep v b j) := by
  unfold argmaxStep
  split_ifs with h
  · exact le_refl _
  · exact not_lt.1 h

lemma argmax5_le (v : Fin 5 → ℚ) : ∀ i, v i ≤ v (argmax5 v) := by
  have h1l : v 0 ≤ v (argmaxStep v 0 1) := argmaxStep_le_left v 0 1
  have h1r : v 1 ≤ v (argmaxStep v 0 1) := argmaxStep_le_right v 0 1
  have h2l : v (argmaxStep v 0 1) ≤ v (argmaxStep v (argmaxStep v 0 1) 2) :=
    argmaxStep_le_left v _ 2
  have h2r : v 2 ≤ v (argmaxStep v (argmaxStep v 0 1) 2) := argmaxStep_le_right v _ 2
  have h3l : v (argmaxStep v (argmaxStep v 0 1) 2) ≤
      v (argmaxStep v (argmaxStep v (argmaxStep v 0 1) 2) 3) := argmaxStep_le_left v _ 3
  have h3r : v 3 ≤ v (argmaxStep v (argmaxStep v (argmaxStep v 0 1) 2) 3) :=
    argmaxStep_le_right v _ 3
  have h4l : v (argmaxStep v (argmaxStep v (argmaxStep v 0 1) 2) 3) ≤ v (argmax5 v) :=
    argmaxStep_le_left v _ 4
  have h4r : v 4 ≤ v (argmax5 v) := argmaxStep_le_right v _ 4
  intro i
  fin_cases i
  · exact le_trans h1l (le_trans h2l (le_trans h3l h4l))
  · exact le_trans h1r (le_trans h2l (le_trans h3l h4l))
  · exact le_trans h2r (le_trans h3l h4l)
  · exact le_trans h3r h4l
  · exact h4r

lemma vmax_eq_argmax (v : Fin 5 → ℚ) : vmax v = v (argmax5 v) := by
  apply le_antisymm
  · exact max_le (max_le (max_le (max_le (argmax5_le v 0) (argmax5_le v 1))
      (argmax5_le v 2)) (argmax5_le v 3)) (argmax5_le v 4)
  · have h : ∀ i, v i ≤ vmax v := by
      intro i
      fin_cases i <;> simp [vmax, le_max_iff, le_refl, true_or, or_true]
    exact h (argmax5 v)

lemma argmax5_congr (v w : Fin 5 → ℚ) (h : ∀ i j, v i < v j ↔ w i < w j) :
    argmax5 w = argmax5 v := by
  have hs : ∀ b j, argmaxStep w b j = argmaxStep v b j := by
    intro b j
    unfold argmaxStep
    rw [if_congr (h b j).symm rfl rfl]
  rw [argmax5, hs, hs, hs, hs]
  rfl

lemma sum5_pos (v : Fin 5 → ℚ) (h : ∀ i, 0 < v i) : 0 < sum5 v := by
  unfold sum5
  have := h 0
  have := h 1
  have := h 2
  have := h 3
  have := h 4
  linarith

lemma softmax_lt_iff (E : ℚ → ℚ) (z : Fin 5 → ℚ) (hE : ∀ x, 0 < E x) (i j : Fin 5) :
    softmax E z i < softmax E z j ↔ E (z i) < E (z j) := by
  unfold softmax
  exact div_lt_div_iff_of_pos_right (sum5_pos _ fun k => hE (z k))

lemma argmax5_softmax (E : ℚ → ℚ) (z : Fin 5 → ℚ) (hE : ∀ x, 0 < E x)
    (hM : StrictMono E) : argmax5 (softmax E z) = argmax5 z := by
  apply argmax5_congr
  intro i j
  rw [softmax_lt_iff E z hE, hM.lt_iff_lt]

/-- A concrete positive strictly monotone stand-in for the exponential,
used by the witnesses: x + 1 on the non-negatives, 1 / (1 - x) below 0. -/
def Eex (x : ℚ) : ℚ := if 0 ≤ x then x + 1 else 1 / (1 - x)

lemma Eex_pos : ∀ x, 0 < Eex x := by
  intro x
  unfold Eex
  split_ifs with h
  · linarith
  · have hx := not_le.1 h
    have h1 : (0:ℚ) < 1 - x := by linarith
    exact one_div_pos.2 h1

lemma Eex_strictMono : StrictMono Eex := by
  intro x y hxy
  by_cases hx : 0 ≤ x
  · by_cases hy : 0 ≤ y
    · simp only [Eex, if_pos hx, if_pos hy]
      linarith
    · exfalso
      have := not_le.1 hy
      linarith
  · by_cases hy : 0 ≤ y
    · simp only [Eex, if_neg hx, if_pos hy]
      have hx1 := not_le.1 hx
      have h1 : (0:ℚ) < 1 - x := by linarith
      have h2 : 1 / (1 - x) < 1 := by
        rw [div_lt_one h1]
        linarith
      linarith
    · simp only [Eex, if_neg hx, if_neg hy]
      have hx1 := not_le.1 hx
      have hy1 := not_le.1 hy
      have h1 : (0:ℚ) < 1 - y := by linarith
      have h2 : 1 - y < 1 - x := by linarith
      exact one_div_lt_one_div_of_lt h1 h2

/-- Concrete parameters for witnesses: the hidden state sums the window and
the head scales it by the bin index. -/
def pEx : ModelParams ℚ :=
  { step := fun h x => h + x, h0 := 0, head := fun h i => h * ((i : ℕ) : ℚ) }

/-- Claim C6: on a successful prediction the reported bin is the index of
maximum probability under softmax of the logits (the code takes argmax of
the logits, which agrees because softmax is order preserving), the
confidence is that winning probability, which is the maximum entry of the
reported distribution, the risk level is the fixed table low, low, medium,
high, extreme at the bin, the expected magnitude is the midpoint of the
bin range with the top bin treated as (7, 10), and the bin range is
reported. -/
theorem c6_prediction_report {H : Type} (E : ℚ → ℚ) (p : ModelParams H) (w : List ℚ)
    (hE : ∀ x, 0 < E x) (hM : StrictMono E) :
    predict_magnitude E (Except.ok p) w = PredictOut.report
      { magnitudeBin := argmax5 (softmax E (forwardLogits p w))
        confidence := softmax E (forwardLogits p w) (argmax5 (softmax E (forwardLogits p w)))
        probabilityDistribution :=
          [softmax E (forwardLogits p w) 0, softmax E (forwardLogits p w) 1,
           softmax E (forwardLogits p w) 2, softmax E (forwardLogits p w) 3,
           softmax E (forwardLogits p w) 4]
        expectedMagnitude :=
          ((magnitude_ranges (argmax5 (softmax E (forwardLogits p w)))).1 +
            (magnitude_ranges (argmax5 (softmax E (forwardLogits p w)))).2) / 2
        riskLevel := risk_levels (argmax5 (softmax E (forwardLogits p w)))
        magnitudeRange := magnitude_ranges (argmax5 (softmax E (forwardLogits p w))) } := by
  have ha : argmax5 (softmax E (forwardLogits p w)) = argmax5 (forwardLogits p w) :=
    argmax5_softmax E (forwardLogits p w) hE hM
  show PredictOut.report
      { magnitudeBin := argmax5 (forwardLogits p w)
        confidence := vmax (softmax E (forwardLogits p w))
        probabilityDistribution :=
          [softmax E (forwardLogits p w) 0, softmax E (forwardLogits p w) 1,
           softmax E (forwardLogits p w) 2, softmax E (forwardLogits p w) 3,
           softmax E (forwardLogits p w) 4]
        expectedMagnitude :=
          ((magnitude_ranges (argmax5 (forwardLogits p w))).1 +
            (magnitude_ranges (argmax5 (forwardLogits p w))).2) / 2
        riskLevel := risk_levels (argmax5 (forwardLogits p w))
        magnitudeRange := magnitude_ranges (argmax5 (forwardLogits p w)) } = _
  rw [vmax_eq_argmax, ← ha]

/-- Claim C6, witness: the theorem instantiated at the stand-in
exponential, the concrete parameters and the window [1, 2]. -/
theorem c6_prediction_report_witness :
    (∀ x, 0 < Eex x) ∧
    predict_magnitude Eex (Except.ok pEx) [1, 2] = PredictOut.report
      { magnitudeBin := argmax5 (softmax Eex (forwardLogits pEx [1, 2]))
        confidence :=
          softmax Eex (forwardLogits pEx [1, 2]) (argmax5 (softmax Eex (forwardLogits pEx [1, 2])))
        probabilityDistribution :=
          [softmax Eex (forwardLogits pEx [1, 2]) 0, softmax Eex (forwardLogits pEx [1, 2]) 1,
           softmax Eex (forwardLogits pEx [1, 2]) 2, softmax Eex (forwardLogits pEx [1, 2]) 3,
           softmax Eex (forwardLogits pEx [1, 2]) 4]
        expectedMagnitude :=
          ((magnitude_ranges (argmax5 (softmax Eex (forwardLogits pEx [1, 2])))).1 +
            (magnitude_ranges (argmax5 (softmax Eex (forwardLogits pEx [1, 2])))).2) / 2
        riskLevel := risk_levels (argmax5 (softmax Eex (forwardLogits pEx [1, 2])))
        magnitudeRange := magnitude_ranges (argmax5 (softmax Eex (forwardLogits pEx [1, 2]))) } :=
  ⟨Eex_pos, c6_prediction_report Eex pEx [1, 2] Eex_pos Eex_strictMono⟩

/-- Claim C8, counterexample: a correctly encoded window of length 3,
different from the training length 10, on which predict returns a normal
prediction result instead of the structured error the claim demands. -/
theorem c8_length_counterexample :
    ([(1:ℚ), 2, 3].length ≠ 10) ∧
    isReportB (predict_magnitude Eex (Except.ok pEx) [1, 2, 3]) = true := by
  exact ⟨by decide, rfl⟩

/-- Claim C8, amended: predict_magnitude performs no window-length check:
whenever the checkpoint loads, every window of every length produces a
prediction result; the structured error result arises exactly from a load
failure. -/
theorem c8_no_length_check {H : Type} (E : ℚ → ℚ) (p : ModelParams H) (w : List ℚ)
    (m : String) :
    isReportB (predict_magnitude E (Except.ok p) w) = true ∧
    predict_magnitude E (Except.error m : Except String (ModelParams H)) w =
      PredictOut.errorOut m :=
  ⟨rfl, rfl⟩

/-- Claim C9: on a successful prediction the reported probability
distribution has exactly 5 entries, each in [0, 1], and sums to 1 under
the exact-arithmetic embedding of softmax. -/
theorem c9_distribution {H : Type} (E : ℚ → ℚ) (p : ModelParams H) (w : List ℚ)
    (hE : ∀ x, 0 < E x) :
    (probDistOf (predict_magnitude E (Except.ok p) w)).length = 5 ∧
    (∀ q ∈ probDistOf (predict_magnitude E (Except.ok p) w), 0 ≤ q ∧ q ≤ 1) ∧
    (probDistOf (predict_magnitude E (Except.ok p) w)).sum = 1 := by
  have hred : probDistOf (predict_magnitude E (Except.ok p) w) =
      [softmax E (forwardLogits p w) 0, softmax E (forwardLogits p w) 1,
       softmax E (forwardLogits p w) 2, softmax E (forwardLogits p w) 3,
       softmax E (forwardLogits p w) 4] := rfl
  rw [hred]
  have hS : 0 < sum5 fun j => E (forwardLogits p w j) :=
    sum5_pos _ fun k => hE (forwardLogits p w k)
  have hbound : ∀ i : Fin 5, 0 ≤ softmax E (forwardLogits p w) i ∧
      softmax E (forwardLogits p w) i ≤ 1 := by
    intro i
    constructor
    · exact div_nonneg (hE (forwardLogits p w i)).le hS.le
    · show E (forwardLogits p w i) / sum5 (fun j => E (forwardLogits p w j)) ≤ 1
      rw [div_le_one hS]
      show E (forwardLogits p w i) ≤ E (forwardLogits p w 0) + E (forwardLogits p w 1) +
        E (forwardLogits p w 2) + E (forwardLogits p w 3) + E (forwardLogits p w 4)
      have h0 := hE (forwardLogits p w 0)
      have h1 := hE (forwardLogits p w 1)
      have h2 := hE (forwardLogits p w 2)
      have h3 := hE (forwardLogits p w 3)
      have h4 := hE (forwardLogits p w 4)
      fin_cases i <;> simp <;> linarith
  refine ⟨rfl, ?_, ?_⟩
  · intro q hq
    have hqmem : q = softmax E (forwardLogits p w) 0 ∨ q = softmax E (forwardLogits p w) 1 ∨
        q = softmax E (forwardLogits p w) 2 ∨ q = softmax E (forwardLogits p w) 3 ∨
        q = softmax E (forwardLogits p w) 4 := by
      simpa using hq
    rcases hqmem with h | h | h | h | h <;> (rw [h]; exact hbound _)
  · rw [sum_five]
    show E (forwardLogits p w 0) / sum5 (fun j => E (forwardLogits p w j)) +
      (E (forwardLogits p w 1) / sum5 (fun j => E (forwardLogits p w j)) +
      (E (forwardLogits p w 2) / sum5 (fun j => E (forwardLogits p w j)) +
      (E (forwardLogits p w 3) / sum5 (fun j => E (forwardLogits p w j)) +
      (E (forwardLogits p w 4) / sum5 (fun j => E (forwardLogits p w j)) + 0)))) = 1
    rw [add_zero, div_add_div_same, div_add_div_same, div_add_div_same, div_add_div_same,
      div_eq_one_iff_eq (ne_of_gt hS)]
    show _ = sum5 fun j => E (forwardLogits p w j)
    unfold sum5
    ring

/-- Claim C9, witness: the theorem instantiated at the stand-in
exponential, the concrete parameters and the window [2]. -/
theorem c9_distribution_witness :
    (probDistOf (predict_magnitude Eex (Except.ok pEx) [2])).length = 5 ∧
    (∀ q ∈ probDistOf (predict_magnitude Eex (Except.ok pEx) [2]), 0 ≤ q ∧ q ≤ 1) ∧
    (probDistOf (predict_magnitude Eex (Except.ok pEx) [2])).sum = 1 :=
  c9_distribution Eex pEx [2] Eex_pos

/-- The structured value printed by the __main__ dispatch. -/
inductive MainOut
  | trainResult (t : TrainOut)
  | predictResult (o : PredictOut)
  | errJson (msg : String)
deriving DecidableEq

/-- The __main__ dispatch of the source. The predict branch sits inside a
try/except whose handler prints the structured error dictionary, and the
branch covers the missing-argument and JSON-decoding failures (the parse
parameter) as well as predict_magnitude, which never raises. The train
branch has no handler at all: an Except.error escaping train_model is the
process crashing with an uncaught exception. -/
def mainEntry {H : Type} (argv : List String) (load : Option (List ℚ)) (r : ℕ → ℚ)
    (parse : String → Except String (List ℚ)) (E : ℚ → ℚ)
    (ck : Except String (ModelParams H)) : Except String MainOut :=
  match argv with
  | [] => Except.ok (MainOut.errJson "No command provided")
  | cmd :: rest =>
    if cmd = "train" then (train_model load r).map MainOut.trainResult
    else if cmd = "predict" then
      Except.ok (match rest with
        | [] => MainOut.errJson "list index out of range"
        | arg :: _ =>
          match parse arg with
          | Except.error e => MainOut.errJson e
          | Except.ok w => MainOut.predictResult (predict_magnitude E ck w))
    else Except.ok (MainOut.errJson "Unknown command")

/-- Claim C7: with five readings, fewer than the window length ten, the
train operation does not convert the failure into the structured error
dictionary: the empty training split makes np.bincount return a 0-length
array, the broadcast against the 5-entry amplification vector raises, and
the exception escapes the operation boundary uncaught, contradicting the
claim that nothing propagates and that insufficient data must not crash. -/
theorem c7_train_crash :
    mainEntry ["train"] (some [1, 2, 3, 4, 5]) (fun _ => 0) (fun s => Except.error s) Eex
      (Except.error "no checkpoint" : Except String (ModelParams ℚ)) =
    Except.error "operands could not be broadcast together" := by
  rfl
